import Mathlib

/-!
Verification development for the `qspectra.hamiltonian` module.

The module builds dense-matrix representations of quantum Hamiltonians:
an `ElectronicHamiltonian` over an excitonic manifold and a
`VibronicHamiltonian` composing it with truncated vibrational modes.

Embedding conventions:
* numpy 2-D arrays become `Mat`: an explicit dimension together with a
  total entry function `ℕ → ℕ → ℝ` (entries outside the square are junk;
  matrix equality `Mat.Eq` compares shape and in-range entries);
* all scalars are real numbers (the code only ever stores real values,
  even when the dtype is complex, so Hermitian = symmetric here);
* `np.kron` becomes `Mat.kron` with the standard index layout
  `(A ⊗ B)[i, j] = A[i / dB, j / dB] * B[i % dB, j % dB]`;
* fallible methods return `Except PyError _`, where `PyError` records the
  Python exception class and message;
* collaborator functions imported from `operator_tools`, `polarization`
  and `utils` are not part of the given source file; they are modelled
  from the specification (each such definition is marked
  `Modelled from the spec:`).
-/

namespace QSpectra

/-- A dense square real matrix in numpy style: an explicit dimension plus a
total entry function (entries at indices `≥ dim` are irrelevant junk). -/
structure Mat where
  dim : ℕ
  entry : ℕ → ℕ → ℝ

/-- Equality as matrices: same shape and same entries inside the square. -/
def Mat.Eq (A B : Mat) : Prop :=
  A.dim = B.dim ∧ ∀ i j, i < A.dim → j < A.dim → A.entry i j = B.entry i j

/-- Matrix of zeros (`np.zeros((n, n))`). -/
def Mat.zeros (n : ℕ) : Mat :=
  ⟨n, fun _ _ => 0⟩

/-- Identity matrix (`np.identity(n)` / `np.eye(n)`). -/
def Mat.identity (n : ℕ) : Mat :=
  ⟨n, fun i j => if i = j then 1 else 0⟩

/-- Entrywise sum of two same-shaped matrices. -/
def Mat.add (A B : Mat) : Mat :=
  ⟨A.dim, fun i j => A.entry i j + B.entry i j⟩

/-- Entrywise difference of two same-shaped matrices. -/
def Mat.sub (A B : Mat) : Mat :=
  ⟨A.dim, fun i j => A.entry i j - B.entry i j⟩

/-- Scalar multiple of a matrix. -/
def Mat.smul (c : ℝ) (A : Mat) : Mat :=
  ⟨A.dim, fun i j => c * A.entry i j⟩

/-- Transpose of a matrix. -/
def Mat.transpose (A : Mat) : Mat :=
  ⟨A.dim, fun i j => A.entry j i⟩

/-- Diagonal matrix built from a vector (`np.diag(v)`). -/
def Mat.diagVec (n : ℕ) (v : ℕ → ℝ) : Mat :=
  ⟨n, fun i j => if i = j then v i else 0⟩

/-- Kronecker product (`np.kron`), with numpy's index layout. -/
def Mat.kron (A B : Mat) : Mat :=
  ⟨A.dim * B.dim,
    fun i j => A.entry (i / B.dim) (j / B.dim) * B.entry (i % B.dim) (j % B.dim)⟩

/-- Trace of a matrix (`np.trace`). -/
def Mat.trace (A : Mat) : ℝ :=
  ∑ i ∈ Finset.range A.dim, A.entry i i

/-- Block-diagonal juxtaposition of two square matrices. -/
def Mat.blockDiag2 (A B : Mat) : Mat :=
  ⟨A.dim + B.dim,
    fun i j =>
      if i < A.dim ∧ j < A.dim then A.entry i j
      else if A.dim ≤ i ∧ A.dim ≤ j then B.entry (i - A.dim) (j - A.dim)
      else 0⟩

/-- A matrix is (real) symmetric on its square; since every matrix built by
this module has real entries, this is the Hermitian predicate. -/
def Mat.Hermitian (A : Mat) : Prop :=
  ∀ i j, i < A.dim → j < A.dim → A.entry i j = A.entry j i

/-- Positive semi-definiteness of the real quadratic form of a matrix. -/
def Mat.PSD (A : Mat) : Prop :=
  ∀ x : ℕ → ℝ,
    0 ≤ ∑ i ∈ Finset.range A.dim, ∑ j ∈ Finset.range A.dim,
      x i * A.entry i j * x j

/-- A matrix whose entry function vanishes off the diagonal (everywhere, not
only inside the square; all constructors used below have this property). -/
def Mat.Diagonal (A : Mat) : Prop :=
  ∀ i j, i ≠ j → A.entry i j = 0

/-- Electronic manifolds: ground, singly excited, doubly excited. -/
inductive Manifold
  | g
  | e
  | f
deriving DecidableEq

/-- A Hilbert subspace label: an ordered selection of manifolds, the
embedding of strings such as `gef` over the alphabet g/e/f. -/
abbrev Sub := List Manifold

/-- Number of unordered pairs of distinct sites, the dimension of the
two-exciton manifold for `n` sites. -/
def nPairs (n : ℕ) : ℕ := n * (n - 1) / 2

/-- Lexicographic enumeration of the pairs `(i, j)` with `i < j < n`,
fixing the basis ordering of the two-exciton manifold. -/
def pairList (n : ℕ) : List (ℕ × ℕ) :=
  (List.range n).flatMap fun i =>
    ((List.range n).filter fun j => decide (i < j)).map fun j => (i, j)

/-- Modelled from the spec: the two-exciton block of `operator_extend` from
`operator_tools` (not under src).  The spec leaves the combinatorial
convention to the algebra collaborator; we fix the standard one
(basis of pairs `i < j`, diagonal `H_ii + H_jj`, off-diagonal single-site
couplings).  No claim below depends on the entries of this block. -/
def twoExcBlock (M : Mat) : Mat :=
  ⟨nPairs M.dim,
    fun a b =>
      let p := (pairList M.dim).getD a (0, 0)
      let q := (pairList M.dim).getD b (0, 0)
      if p = q then M.entry p.1 p.1 + M.entry p.2 p.2
      else
        (if p.2 = q.2 then M.entry p.1 q.1 else 0)
        + (if p.1 = q.1 then M.entry p.2 q.2 else 0)
        + (if p.2 = q.1 then M.entry p.1 q.2 else 0)
        + (if p.1 = q.2 then M.entry p.2 q.1 else 0)⟩

/-- Dimension of the block contributed by one manifold for `n` sites:
one ground state, `n` singly excited states, `n(n-1)/2` doubly excited. -/
def blockDim (n : ℕ) : Manifold → ℕ
  | .g => 1
  | .e => n
  | .f => nPairs n

/-- The block of a 1-excitation matrix in one manifold: a single
zero-energy ground state, the matrix itself, or the two-exciton block. -/
def manifoldBlock (M : Mat) : Manifold → Mat
  | .g => Mat.zeros 1
  | .e => M
  | .f => twoExcBlock M

/-- Modelled from the spec: `operator_tools.operator_extend` (not under
src) — block extension of a 1-excitation matrix into the requested
manifolds, in the order listed by the subspace label. -/
def operator_extend (M : Mat) : Sub → Mat
  | [] => Mat.zeros 0
  | m :: rest => Mat.blockDiag2 (manifoldBlock M m) (operator_extend M rest)

/-- Modelled from the spec: `operator_tools.unit_vec` (not under src) —
standard basis vector `k` of length `n` (the length only fixes the ambient
dimension; the function is total). -/
def unit_vec (k : ℕ) : ℕ → ℝ :=
  fun i => if i = k then 1 else 0

/-- Python exception classes observable from this module: the module's own
`HamiltonianError` and the interpreter's `AttributeError`. -/
inductive PyErrorKind
  | hamiltonianError
  | attributeError
deriving DecidableEq

/-- A raised Python exception: its class together with its message. -/
structure PyError where
  kind : PyErrorKind
  msg : String
deriving DecidableEq

/-- Modelled from the spec: the bath collaborator (module `bath`, not under
src) exposes a scalar `temperature` attribute. -/
structure Bath where
  temperature : ℝ

/-- Polarization labels accepted by `polarization_vector`. -/
inductive Pol
  | x
  | y
  | z
deriving DecidableEq

/-- Modelled from the spec: `polarization.polarization_vector` (not under
src) — unit 3-vector for a named polarization direction. -/
def polarization_vector : Pol → ℕ → ℝ
  | .x => fun k => if k = 0 then 1 else 0
  | .y => fun k => if k = 1 then 1 else 0
  | .z => fun k => if k = 2 then 1 else 0

/-- One character of a `transitions` string: `-` (lowering) or `+`
(raising). -/
inductive TransSign
  | minus
  | plus
deriving DecidableEq

/-- The embedding of a `transitions` string such as `-+`. -/
abbrev Transitions := List TransSign

/-- Locate a row index of the block layout of `operator_extend` inside a
subspace label: the manifold it falls in and the offset within that block. -/
def locate (n : ℕ) : Sub → ℕ → Option (Manifold × ℕ)
  | [], _ => none
  | m :: rest, i =>
    if i < blockDim n m then some (m, i)
    else locate n rest (i - blockDim n m)

/-- Single matrix element of the site-`a` exciton lowering operator between
two located basis states: `|g><e_a|` between the ground and singly excited
manifolds, and the matching pair-annihilation between the singly and doubly
excited manifolds. -/
def lowerEntry (n a : ℕ) : Manifold × ℕ → Manifold × ℕ → ℝ
  | (.g, _), (.e, k) => if k = a then 1 else 0
  | (.e, k), (.f, p) =>
    let q := (pairList n).getD p (0, 0)
    if (q.1 = a ∧ q.2 = k) ∨ (q.2 = a ∧ q.1 = k) then 1 else 0
  | _, _ => 0

/-- Modelled from the spec: `operator_tools.transition_operator` (not under
src) — the raising/lowering operator between the manifolds of `subspace`,
restricted to site `a`, including the directions listed in `transitions`.
No claim below depends on its entries; only the shape of
`dipole_operator`'s success branch does. -/
def transition_operator (a n : ℕ) (s : Sub) (t : Transitions) : Mat :=
  ⟨(operator_extend (Mat.zeros n) s).dim,
    fun i j =>
      match locate n s i, locate n s j with
      | some p, some q =>
        (if TransSign.minus ∈ t then lowerEntry n a p q else 0)
        + (if TransSign.plus ∈ t then lowerEntry n a q p else 0)
      | _, _ => 0⟩

/-- The `hamiltonian.Bath`-carrying electronic Hamiltonian record.  The
fields mirror the attributes set by `ElectronicHamiltonian.__init__`
(`dipoles` is an optional n×3 array, embedded as a total function from
site and axis). -/
structure ElectronicHamiltonian where
  H_1exc : Mat
  energy_offset : ℝ
  bath : Option Bath
  dipoles : Option (ℕ → ℕ → ℝ)
  energy_spread_extra : ℝ
  n_vibrational_states : ℕ

/-- The constructor `ElectronicHamiltonian.__init__`: stores the given
fields and sets `n_vibrational_states = 1`. -/
def ElectronicHamiltonian.make (H_1exc : Mat) (energy_offset : ℝ)
    (bath : Option Bath) (dipoles : Option (ℕ → ℕ → ℝ))
    (energy_spread_extra : ℝ) : ElectronicHamiltonian :=
  ⟨H_1exc, energy_offset, bath, dipoles, energy_spread_extra, 1⟩

namespace ElectronicHamiltonian

/-- The `n_sites` property: `len(self.H_1exc)`. -/
def n_sites (h : ElectronicHamiltonian) : ℕ :=
  h.H_1exc.dim

/-- The memoized method `H(subspace)`: `operator_extend(H_1exc, subspace)`
(the memoization wrapper is modelled separately; see `memoCall`). -/
def H (h : ElectronicHamiltonian) (s : Sub) : Mat :=
  operator_extend h.H_1exc s

/-- The `n_states` method of the parent class: `len(self.H(subspace))`. -/
def n_states (h : ElectronicHamiltonian) (s : Sub) : ℕ :=
  (h.H s).dim

/-- The memoized method `ground_state(subspace)`: an all-zero density
matrix with a single 1 at index (0, 0) when the label includes `g`. -/
def ground_state (h : ElectronicHamiltonian) (s : Sub) : Mat :=
  ⟨h.n_states s,
    fun i j => if Manifold.g ∈ s ∧ i = 0 ∧ j = 0 then 1 else 0⟩

/-- The `mean_excitation_freq` property: `np.mean(self.E('e')) +
self.energy_offset`.  The mean of the eigenvalues returned by
`scipy.linalg.eigh` on the Hermitian matrix `H('e')` equals its trace
divided by its dimension; the lemma `trace_eq_sum_eigenvalues` below
establishes this identity against Mathlib's spectral theorem. -/
noncomputable def mean_excitation_freq (h : ElectronicHamiltonian) : ℝ :=
  (h.H [Manifold.e]).trace / (h.H [Manifold.e]).dim + h.energy_offset

/-- The memoized method `in_rotating_frame(rw_freq=None)`: defaults the
frequency to `mean_excitation_freq`, shifts `H_1exc` by a multiple of the
identity, and rebuilds a new instance through the constructor. -/
noncomputable def in_rotating_frame (h : ElectronicHamiltonian)
    (rw_freq? : Option ℝ) : ElectronicHamiltonian :=
  let rw_freq := rw_freq?.getD h.mean_excitation_freq
  ElectronicHamiltonian.make
    (Mat.sub h.H_1exc
      (Mat.smul (rw_freq - h.energy_offset) (Mat.identity h.H_1exc.dim)))
    rw_freq h.bath h.dipoles h.energy_spread_extra

/-- The method `dipole_operator(subspace, polarization, transitions)`:
raises `HamiltonianError('transition dipole moments undefined')` when no
dipoles are configured, otherwise contracts the per-site transition
operators with the dipole vectors and the polarization vector
(`np.einsum('nij,nk,k->ij', ...)`). -/
def dipole_operator (h : ElectronicHamiltonian) (s : Sub) (p : Pol)
    (t : Transitions) : Except PyError Mat :=
  match h.dipoles with
  | none => .error ⟨.hamiltonianError, "transition dipole moments undefined"⟩
  | some dip =>
    .ok ⟨h.n_states s,
      fun i j =>
        ∑ a ∈ Finset.range h.n_sites, ∑ k ∈ Finset.range 3,
          (transition_operator a h.n_sites s t).entry i j
            * dip a k * polarization_vector p k⟩

/-- The method `number_operator(site, subspace)`: the diagonal occupation
operator of one site, extended to the subspace. -/
def number_operator (h : ElectronicHamiltonian) (site : ℕ) (s : Sub) : Mat :=
  operator_extend (Mat.diagVec h.n_sites (unit_vec site)) s

/-- The method `system_bath_couplings(subspace)`: raises
`HamiltonianError('bath undefined')` when no bath is configured, otherwise
returns one number operator per site. -/
def system_bath_couplings (h : ElectronicHamiltonian) (s : Sub) :
    Except PyError (List Mat) :=
  match h.bath with
  | none => .error ⟨.hamiltonianError, "bath undefined"⟩
  | some _ => .ok ((List.range h.n_sites).map fun a => h.number_operator a s)

end ElectronicHamiltonian

/-- View a `Mat` as a Mathlib matrix over `Fin dim`. -/
def Mat.toMatrix (A : Mat) : Matrix (Fin A.dim) (Fin A.dim) ℝ :=
  Matrix.of fun i j => A.entry i j

/-- View a Mathlib matrix over `Fin n` as a `Mat` (junk 0 outside). -/
def Mat.ofMatrix {n : ℕ} (M : Matrix (Fin n) (Fin n) ℝ) : Mat :=
  ⟨n, fun i j => if h : i < n ∧ j < n then M ⟨i, h.1⟩ ⟨j, h.2⟩ else 0⟩

/-- The module-level function `thermal_state(hamiltonian_matrix,
temperature)`: `rho = expm(-hamiltonian_matrix / temperature)` followed by
`rho / np.trace(rho)`.  The matrix exponential is Mathlib's
`NormedSpace.exp` on square real matrices. -/
noncomputable def thermal_state (H : Mat) (T : ℝ) : Mat :=
  Mat.ofMatrix
    (((NormedSpace.exp ℝ ((-T⁻¹) • H.toMatrix)).trace)⁻¹
      • NormedSpace.exp ℝ ((-T⁻¹) • H.toMatrix))

/-- Modelled from the spec: `operator_tools.vib_annihilate` (not under
src) — truncated harmonic-oscillator annihilation operator,
`a[k-1, k] = sqrt k`. -/
noncomputable def vib_annihilate (levels : ℕ) : Mat :=
  ⟨levels, fun i j => if j = i + 1 then Real.sqrt j else 0⟩

/-- Modelled from the spec: `operator_tools.vib_create` (not under src) —
truncated creation operator, the transpose of `vib_annihilate`. -/
noncomputable def vib_create (levels : ℕ) : Mat :=
  (vib_annihilate levels).transpose

/-- Modelled from the spec: `operator_tools.extend_vib_operator` (not
under src) — embeds a single-mode operator into the joint vibrational
space at mode position `m`, with identities on the other modes. -/
def extend_vib_operator (levels : List ℕ) (m : ℕ) (op : Mat) : Mat :=
  Mat.kron (Mat.identity ((levels.take m).prod))
    (Mat.kron op (Mat.identity ((levels.drop (m + 1)).prod)))

/-- The `hamiltonian.VibronicHamiltonian` record: the wrapped electronic
Hamiltonian plus the vibrational data set by `__init__` (couplings are an
n×K array, embedded as a total function from site and mode). -/
structure VibronicHamiltonian where
  electronic : ElectronicHamiltonian
  n_vibrational_levels : List ℕ
  vib_energies : List ℝ
  elec_vib_couplings : ℕ → ℕ → ℝ

namespace VibronicHamiltonian

/-- The attribute copy `self.energy_offset = self.electronic.energy_offset`
performed by `__init__`. -/
def energy_offset (v : VibronicHamiltonian) : ℝ :=
  v.electronic.energy_offset

/-- The attribute copy `self.bath = self.electronic.bath` performed by
`__init__`. -/
def bath (v : VibronicHamiltonian) : Option Bath :=
  v.electronic.bath

/-- The attribute copy `self.n_sites = self.electronic.n_sites`. -/
def n_sites (v : VibronicHamiltonian) : ℕ :=
  v.electronic.n_sites

/-- The memoized property `n_vibrational_states`: the product of the
per-mode truncation levels. -/
def n_vibrational_states (v : VibronicHamiltonian) : ℕ :=
  v.n_vibrational_levels.prod

/-- The memoized property `H_vibrational`: starting from a zero matrix on
the joint vibrational space, add for each mode its energy times the
embedded diagonal number operator `diag(0 .. levels[m]-1)`. -/
def H_vibrational (v : VibronicHamiltonian) : Mat :=
  (v.n_vibrational_levels.zip v.vib_energies).enum.foldl
    (fun acc me =>
      Mat.add acc
        (Mat.smul me.2.2
          (extend_vib_operator v.n_vibrational_levels me.1
            (Mat.diagVec me.2.1 (fun i => (i : ℝ))))))
    (Mat.zeros v.n_vibrational_states)

/-- The method `H_electronic_vibrational(subspace)`: the linear vibronic
coupling `sum_{i,m} c[i,m] * (number operator of site i) ⊗ (embedded
displacement operator of mode m)`. -/
noncomputable def H_electronic_vibrational (v : VibronicHamiltonian)
    (s : Sub) : Mat :=
  (List.range v.electronic.n_sites).foldl
    (fun acc1 i =>
      (List.range v.n_vibrational_levels.length).foldl
        (fun acc2 m =>
          Mat.add acc2
            (Mat.smul (v.elec_vib_couplings i m)
              (Mat.kron (v.electronic.number_operator i s)
                (extend_vib_operator v.n_vibrational_levels m
                  (Mat.add (vib_annihilate (v.n_vibrational_levels.getD m 0))
                    (vib_create (v.n_vibrational_levels.getD m 0)))))))
        acc1)
    (Mat.zeros (v.electronic.n_states s * v.n_vibrational_states))

/-- The helper `el_to_sys_operator`: tensor an electronic operator with
the vibrational identity (electronic factor first). -/
def el_to_sys_operator (v : VibronicHamiltonian) (op : Mat) : Mat :=
  Mat.kron op (Mat.identity v.n_vibrational_states)

/-- The helper `vib_to_sys_operator`: tensor the electronic identity at
the subspace dimension with a vibrational operator. -/
def vib_to_sys_operator (v : VibronicHamiltonian) (op : Mat) (s : Sub) : Mat :=
  Mat.kron (Mat.identity (v.electronic.n_states s)) op

/-- The memoized method `H(subspace)`: embedded electronic Hamiltonian
plus embedded vibrational Hamiltonian plus the vibronic coupling. -/
noncomputable def H (v : VibronicHamiltonian) (s : Sub) : Mat :=
  Mat.add
    (Mat.add (v.el_to_sys_operator (v.electronic.H s))
      (v.vib_to_sys_operator v.H_vibrational s))
    (v.H_electronic_vibrational s)

/-- The memoized method `ground_state(subspace)`:
`np.kron(electronic.ground_state(subspace), thermal_state(H_vibrational,
self.bath.temperature))`.  When `self.bath` is `None` the attribute access
`self.bath.temperature` raises `AttributeError` (there is no bath check in
this method). -/
noncomputable def ground_state (v : VibronicHamiltonian) (s : Sub) :
    Except PyError Mat :=
  match v.bath with
  | none =>
    .error ⟨.attributeError, "NoneType object has no attribute temperature"⟩
  | some b =>
    .ok (Mat.kron (v.electronic.ground_state s)
      (thermal_state v.H_vibrational b.temperature))

/-- The memoized method `in_rotating_frame(*args)`: delegates to the
wrapped electronic Hamiltonian and rebuilds the wrapper with the same
vibrational fields. -/
noncomputable def in_rotating_frame (v : VibronicHamiltonian)
    (rw_freq? : Option ℝ) : VibronicHamiltonian :=
  ⟨v.electronic.in_rotating_frame rw_freq?, v.n_vibrational_levels,
    v.vib_energies, v.elec_vib_couplings⟩

/-- The method `dipole_operator(*args)`: the electronic dipole operator
embedded by `el_to_sys_operator` (errors propagate unchanged). -/
def dipole_operator (v : VibronicHamiltonian) (s : Sub) (p : Pol)
    (t : Transitions) : Except PyError Mat :=
  (v.electronic.dipole_operator s p t).map v.el_to_sys_operator

/-- The method `system_bath_couplings(*args)`: the electronic coupling
list embedded by `el_to_sys_operator`.  The source passes the whole list
(a stacked 3-D array) to `el_to_sys_operator`; `np.kron` broadcasts over
the leading axis, which is exactly a map of the binary Kronecker product
over the list. -/
def system_bath_couplings (v : VibronicHamiltonian) (s : Sub) :
    Except PyError (List Mat) :=
  (v.electronic.system_bath_couplings s).map fun l =>
    l.map v.el_to_sys_operator

end VibronicHamiltonian

/-!
Memoization model.  `utils.imemoize` and `utils.memoized_property` are not
under src; the cache discipline is modelled from the spec: a per-instance
association list keyed by the call's argument tuple, filled on first use.
-/

/-- Association-list lookup in a memoization cache. -/
def cacheLookup {κ β : Type} [DecidableEq κ] : List (κ × β) → κ → Option β
  | [], _ => none
  | (k', w) :: rest, k => if k = k' then some w else cacheLookup rest k

/-- Modelled from the spec: one call of a method memoized by
`utils.imemoize`.  Returns the result, the updated cache, and the list of
keys on which the underlying body was actually executed during this call
(empty on a cache hit, the singleton key on a miss). -/
def memoCall {κ β : Type} [DecidableEq κ] (f : κ → β)
    (c : List (κ × β)) (k : κ) : β × List (κ × β) × List κ :=
  match cacheLookup c k with
  | some w => (w, c, [])
  | none => (f k, (k, f k) :: c, [k])

/-- A sequence of memoized calls against one instance, threading the
cache; also accumulates the keys on which the body executed. -/
def memoRun {κ β : Type} [DecidableEq κ] (f : κ → β)
    (c : List (κ × β)) : List κ → List β × List (κ × β) × List κ
  | [] => ([], c, [])
  | k :: ks =>
    let r := memoCall f c k
    let rest := memoRun f r.2.1 ks
    (r.1 :: rest.1, rest.2.1, r.2.2 ++ rest.2.2)

/-!
Concrete instances used by witnesses and counterexamples, built around the
2-site example of the spec (`H_1exc = [[0, 1], [1, 0]]`).
-/

/-- The 2-site example matrix `[[0, 1], [1, 0]]`. -/
def ex2 : Mat :=
  ⟨2, fun i j => if i + j = 1 then 1 else 0⟩

/-- A 2-site electronic Hamiltonian with no bath and no dipoles. -/
def ehPlain : ElectronicHamiltonian :=
  ElectronicHamiltonian.make ex2 0 none none 100

/-- A 2-site electronic Hamiltonian with a bath of temperature 1. -/
def ehBath : ElectronicHamiltonian :=
  ElectronicHamiltonian.make ex2 0 (some ⟨1⟩) none 100

/-- A vibronic Hamiltonian wrapping `ehPlain` (no bath): one mode with two
levels. -/
def vibNoBath : VibronicHamiltonian :=
  ⟨ehPlain, [2], [1], fun _ _ => 1⟩

/-- A vibronic Hamiltonian wrapping `ehBath`: one mode with two levels. -/
def vibBath : VibronicHamiltonian :=
  ⟨ehBath, [2], [1], fun _ _ => 1⟩

/-!
Theorems.
-/

/-- C4: for every `ElectronicHamiltonian` and frequency `f`,
`in_rotating_frame(f)` returns a new instance whose `H_1exc` is
`H_1exc - (f - energy_offset) * Identity` (also spelled out entrywise),
whose `energy_offset` is `f`, whose `bath`, `dipoles` and
`energy_spread_extra` are carried over unchanged, and omitting the
frequency is the same as passing `mean_excitation_freq`. -/
theorem in_rotating_frame_fields (h : ElectronicHamiltonian) (f : ℝ) :
    (h.in_rotating_frame (some f)).H_1exc
      = Mat.sub h.H_1exc
          (Mat.smul (f - h.energy_offset) (Mat.identity h.H_1exc.dim))
    ∧ (∀ i j, (h.in_rotating_frame (some f)).H_1exc.entry i j
        = h.H_1exc.entry i j
          - (f - h.energy_offset) * (if i = j then 1 else 0))
    ∧ (h.in_rotating_frame (some f)).H_1exc.dim = h.H_1exc.dim
    ∧ (h.in_rotating_frame (some f)).energy_offset = f
    ∧ (h.in_rotating_frame (some f)).bath = h.bath
    ∧ (h.in_rotating_frame (some f)).dipoles = h.dipoles
    ∧ (h.in_rotating_frame (some f)).energy_spread_extra
        = h.energy_spread_extra
    ∧ h.in_rotating_frame none
        = h.in_rotating_frame (some h.mean_excitation_freq) :=
  ⟨rfl, fun _ _ => rfl, rfl, rfl, rfl, rfl, rfl, rfl⟩

/-- C5: the rotating-frame transform is a pure diagonal shift and is
invertible: shifting to frequency `f` and then back to the original
`energy_offset` recovers `H_1exc` exactly and restores the offset. -/
theorem in_rotating_frame_round_trip (h : ElectronicHamiltonian) (f : ℝ) :
    ((h.in_rotating_frame (some f)).in_rotating_frame
        (some h.energy_offset)).H_1exc.Eq h.H_1exc
    ∧ ((h.in_rotating_frame (some f)).in_rotating_frame
        (some h.energy_offset)).energy_offset = h.energy_offset := by
  refine ⟨⟨rfl, fun i j _ _ => ?_⟩, rfl⟩
  simp only [ElectronicHamiltonian.in_rotating_frame,
    ElectronicHamiltonian.make, Option.getD_some, Mat.sub, Mat.smul,
    Mat.identity]
  ring

/-- C6: for every `VibronicHamiltonian` and subspace, `H(subspace)` is the
sum of the electronic Hamiltonian tensored with the vibrational identity,
the electronic identity tensored with `H_vibrational`, and
`H_electronic_vibrational(subspace)`, with the electronic factor first in
both Kronecker embeddings. -/
theorem vibronic_H_decomposition (v : VibronicHamiltonian) (s : Sub) :
    v.H s
      = Mat.add
          (Mat.add
            (Mat.kron (v.electronic.H s)
              (Mat.identity v.n_vibrational_states))
            (Mat.kron (Mat.identity (v.electronic.n_states s))
              v.H_vibrational))
          (v.H_electronic_vibrational s) :=
  rfl

/-- C9: every `ElectronicHamiltonian` built by the constructor has
`n_vibrational_states = 1`, and so does every instance produced by
`in_rotating_frame` (which calls the constructor); a `VibronicHamiltonian`
instead reports the product of its truncation levels. -/
theorem electronic_n_vibrational_states_one :
    (∀ (M : Mat) (e0 : ℝ) (b : Option Bath) (d : Option (ℕ → ℕ → ℝ))
        (x : ℝ),
      (ElectronicHamiltonian.make M e0 b d x).n_vibrational_states = 1)
    ∧ (∀ (h : ElectronicHamiltonian) (rw : Option ℝ),
      (h.in_rotating_frame rw).n_vibrational_states = 1)
    ∧ (∀ v : VibronicHamiltonian,
      v.n_vibrational_states = v.n_vibrational_levels.prod) :=
  ⟨fun _ _ _ _ _ => rfl, fun _ _ => rfl, fun _ => rfl⟩

/-- C2 counterexample: on a Hamiltonian with neither dipoles nor bath, the
two failures are not two distinct exception kinds: both
`dipole_operator` and `system_bath_couplings` raise the single class
`HamiltonianError`, distinguished only by message. -/
theorem error_kinds_not_distinct_counterexample :
    ehPlain.dipole_operator [Manifold.g, Manifold.e] Pol.x
        [TransSign.minus, TransSign.plus]
      = Except.error
          ⟨PyErrorKind.hamiltonianError, "transition dipole moments undefined"⟩
    ∧ ehPlain.system_bath_couplings [Manifold.g, Manifold.e]
      = Except.error ⟨PyErrorKind.hamiltonianError, "bath undefined"⟩ :=
  ⟨rfl, rfl⟩

/-- C2 amended: for every Hamiltonian instance (electronic or vibronic),
`dipole_operator` raises `HamiltonianError('transition dipole moments
undefined')` exactly when no dipoles were configured and returns normally
otherwise, and `system_bath_couplings` raises `HamiltonianError('bath
undefined')` exactly when no bath was configured and returns normally
otherwise; the two failures share the single exception class
`HamiltonianError` and are distinguished by message only. -/
theorem undefined_config_errors_amended (h : ElectronicHamiltonian)
    (v : VibronicHamiltonian) (s : Sub) (p : Pol) (t : Transitions) :
    (h.dipole_operator s p t
        = Except.error
            ⟨PyErrorKind.hamiltonianError,
              "transition dipole moments undefined"⟩
      ↔ h.dipoles = none)
    ∧ ((∃ M, h.dipole_operator s p t = Except.ok M) ↔ h.dipoles ≠ none)
    ∧ (h.system_bath_couplings s
        = Except.error ⟨PyErrorKind.hamiltonianError, "bath undefined"⟩
      ↔ h.bath = none)
    ∧ ((∃ L, h.system_bath_couplings s = Except.ok L) ↔ h.bath ≠ none)
    ∧ (v.dipole_operator s p t
        = Except.error
            ⟨PyErrorKind.hamiltonianError,
              "transition dipole moments undefined"⟩
      ↔ v.electronic.dipoles = none)
    ∧ ((∃ M, v.dipole_operator s p t = Except.ok M)
      ↔ v.electronic.dipoles ≠ none)
    ∧ (v.system_bath_couplings s
        = Except.error ⟨PyErrorKind.hamiltonianError, "bath undefined"⟩
      ↔ v.bath = none)
    ∧ ((∃ L, v.system_bath_couplings s = Except.ok L) ↔ v.bath ≠ none) := by
  unfold VibronicHamiltonian.dipole_operator
    VibronicHamiltonian.system_bath_couplings VibronicHamiltonian.bath
  cases hd : h.dipoles <;> cases hb : h.bath <;>
    cases hvd : v.electronic.dipoles <;> cases hvb : v.electronic.bath <;>
      simp [ElectronicHamiltonian.dipole_operator,
        ElectronicHamiltonian.system_bath_couplings, hd, hb, hvd, hvb,
        Except.map]

/-- C3 counterexample: a vibronic Hamiltonian without a configured bath
raises `AttributeError` (from the unguarded access
`self.bath.temperature`) in `ground_state`, not the `HamiltonianError`
class used for undefined-bath failures. -/
theorem vibronic_ground_state_no_bath_counterexample :
    vibNoBath.ground_state [Manifold.g, Manifold.e]
      = Except.error
          ⟨PyErrorKind.attributeError,
            "NoneType object has no attribute temperature"⟩
    ∧ PyErrorKind.attributeError ≠ PyErrorKind.hamiltonianError := by
  constructor
  · rfl
  · decide

/-- C3 amended: for every `VibronicHamiltonian` whose wrapped electronic
Hamiltonian has no configured bath, `ground_state(subspace)` fails, but
with an `AttributeError` from the attribute access on `None`, not with
the domain-specific `HamiltonianError`. -/
theorem vibronic_ground_state_no_bath_attribute_error
    (v : VibronicHamiltonian) (s : Sub) (hb : v.electronic.bath = none) :
    v.ground_state s
      = Except.error
          ⟨PyErrorKind.attributeError,
            "NoneType object has no attribute temperature"⟩ := by
  unfold VibronicHamiltonian.ground_state VibronicHamiltonian.bath
  rw [hb]

/-- C3 amended, witness at the concrete bathless vibronic instance. -/
theorem vibronic_ground_state_no_bath_attribute_error_witness :
    vibNoBath.electronic.bath = none
    ∧ vibNoBath.ground_state [Manifold.g]
      = Except.error
          ⟨PyErrorKind.attributeError,
            "NoneType object has no attribute temperature"⟩ :=
  ⟨rfl, vibronic_ground_state_no_bath_attribute_error vibNoBath
    [Manifold.g] rfl⟩

/-- C1: for every vibronic Hamiltonian whose wrapped electronic
Hamiltonian has a configured bath, `system_bath_couplings(subspace)`
returns one matrix per electronic site, the k-th being the electronic
number operator of site k extended to the subspace and tensored on the
right with the vibrational identity (`el_to_sys_operator`). -/
theorem vibronic_system_bath_couplings_per_site (v : VibronicHamiltonian)
    (b : Bath) (s : Sub) (hb : v.electronic.bath = some b) :
    v.system_bath_couplings s = Except.ok
      ((List.range v.electronic.n_sites).map fun a =>
        Mat.kron
          (operator_extend
            (Mat.diagVec v.electronic.n_sites (unit_vec a)) s)
          (Mat.identity v.n_vibrational_states))
    ∧ ∀ L, v.system_bath_couplings s = Except.ok L →
        L.length = v.electronic.n_sites
        ∧ ∀ a, a < v.electronic.n_sites →
            L.getD a (Mat.zeros 0)
              = v.el_to_sys_operator (v.electronic.number_operator a s) := by
  have h1 : v.system_bath_couplings s = Except.ok
      ((List.range v.electronic.n_sites).map fun a =>
        Mat.kron
          (operator_extend
            (Mat.diagVec v.electronic.n_sites (unit_vec a)) s)
          (Mat.identity v.n_vibrational_states)) := by
    unfold VibronicHamiltonian.system_bath_couplings
      ElectronicHamiltonian.system_bath_couplings
    rw [hb]
    simp [Except.map, List.map_map]
    exact fun a _ => rfl
  refine ⟨h1, fun L hL => ?_⟩
  rw [h1] at hL
  obtain rfl : _ = L := Except.ok.inj hL
  constructor
  · simp
  · intro a ha
    simp [List.getD_eq_getElem?_getD, List.getElem?_range, ha]
    rfl

/-- C1, witness at the concrete two-site vibronic instance with a bath. -/
theorem vibronic_system_bath_couplings_per_site_witness :
    vibBath.electronic.bath = some ⟨1⟩
    ∧ vibBath.system_bath_couplings [Manifold.g, Manifold.e] = Except.ok
        ((List.range vibBath.electronic.n_sites).map fun a =>
          Mat.kron
            (operator_extend
              (Mat.diagVec vibBath.electronic.n_sites (unit_vec a))
              [Manifold.g, Manifold.e])
            (Mat.identity vibBath.n_vibrational_states)) :=
  ⟨rfl, (vibronic_system_bath_couplings_per_site vibBath ⟨1⟩
    [Manifold.g, Manifold.e] rfl).1⟩

/-- Lookup in a cache whose pairs are all input/output pairs of `f` can
only return the value of `f`. -/
theorem cacheLookup_sound {κ β : Type} [DecidableEq κ] {f : κ → β}
    {c : List (κ × β)} (hc : ∀ p ∈ c, p.2 = f p.1) {k : κ} {w : β}
    (hw : cacheLookup c k = some w) : w = f k := by
  induction c with
  | nil => simp [cacheLookup] at hw
  | cons p rest ih =>
    obtain ⟨k', w'⟩ := p
    by_cases hk : k = k'
    · subst hk
      simp [cacheLookup] at hw
      subst hw
      simpa using hc (k, w') (by simp)
    · simp [cacheLookup, hk] at hw
      exact ih (fun p hp => hc p (by simp [hp])) hw

/-- A memoized call on a valid cache returns the value of the body. -/
theorem memoCall_result {κ β : Type} [DecidableEq κ] (f : κ → β)
    (c : List (κ × β)) (k : κ) (hc : ∀ p ∈ c, p.2 = f p.1) :
    (memoCall f c k).1 = f k := by
  unfold memoCall
  split
  · next w hw => exact cacheLookup_sound hc hw
  · rfl

/-- A memoized call preserves cache validity. -/
theorem memoCall_valid {κ β : Type} [DecidableEq κ] (f : κ → β)
    (c : List (κ × β)) (k : κ) (hc : ∀ p ∈ c, p.2 = f p.1) :
    ∀ p ∈ (memoCall f c k).2.1, p.2 = f p.1 := by
  unfold memoCall
  split
  · exact hc
  · intro p hp
    rcases List.mem_cons.mp hp with h | h
    · subst h; rfl
    · exact hc p h

/-- After a memoized call, the key is cached with the returned result. -/
theorem memoCall_cached {κ β : Type} [DecidableEq κ] (f : κ → β)
    (c : List (κ × β)) (k : κ) :
    cacheLookup (memoCall f c k).2.1 k = some ((memoCall f c k).1) := by
  unfold memoCall
  split
  · next w hw => exact hw
  · simp [cacheLookup]

/-- A memoized call leaves earlier cache entries reachable unchanged. -/
theorem memoCall_preserves {κ β : Type} [DecidableEq κ] (f : κ → β)
    {c : List (κ × β)} {k : κ} {w : β} (k' : κ)
    (h : cacheLookup c k = some w) :
    cacheLookup (memoCall f c k').2.1 k = some w := by
  unfold memoCall
  split
  · exact h
  · next hnone =>
    by_cases hk : k = k'
    · subst hk; rw [h] at hnone; cases hnone
    · simpa [cacheLookup, hk] using h

/-- A key already present in the cache is never recomputed during any
subsequent run of memoized calls. -/
theorem memoRun_no_recompute {κ β : Type} [DecidableEq κ] (f : κ → β)
    (ks : List κ) {c : List (κ × β)} {k : κ} {w : β}
    (h : cacheLookup c k = some w) : k ∉ (memoRun f c ks).2.2 := by
  induction ks generalizing c with
  | nil => simp [memoRun]
  | cons k' ks ih =>
    unfold memoRun
    simp only [List.mem_append, not_or]
    refine ⟨?_, ih (memoCall_preserves f k' h)⟩
    unfold memoCall
    split
    · simp
    · next hnone =>
      simp only [List.mem_singleton]
      intro hk
      subst hk
      rw [h] at hnone
      cases hnone

/-- Across a run of memoized calls the body executes at most once per
key: the executed-keys list has no duplicates. -/
theorem memoRun_comp_nodup {κ β : Type} [DecidableEq κ] (f : κ → β)
    (ks : List κ) (c : List (κ × β)) : ((memoRun f c ks).2.2).Nodup := by
  induction ks generalizing c with
  | nil => simp [memoRun]
  | cons k ks ih =>
    unfold memoRun memoCall
    split
    · simpa using ih c
    · have hnotin : k ∉ (memoRun f ((k, f k) :: c) ks).2.2 :=
        memoRun_no_recompute f ks
          (show cacheLookup ((k, f k) :: c) k = some (f k) by
            simp [cacheLookup])
      simpa using ⟨hnotin, ih ((k, f k) :: c)⟩

/-- The results of a run from a valid cache are those of the bare body. -/
theorem memoRun_results {κ β : Type} [DecidableEq κ] (f : κ → β)
    (ks : List κ) (c : List (κ × β)) (hc : ∀ p ∈ c, p.2 = f p.1) :
    (memoRun f c ks).1 = ks.map f := by
  induction ks generalizing c with
  | nil => rfl
  | cons k ks ih =>
    unfold memoRun
    simp [memoCall_result f c k hc, ih _ (memoCall_valid f c k hc)]

/-- C8: the memoization model of `utils.imemoize` is a per-instance,
per-key cache: a repeated call with the same key returns exactly the
stored result of the first call, changes nothing and executes no body;
from a fresh instance the sequence of memoized results equals mapping the
unmemoized body, and the body executes at most once per key — in
particular this holds for the memoized queries `H` and `ground_state` of
both Hamiltonian classes. -/
theorem memoized_queries_cache_correct {κ β : Type} [DecidableEq κ]
    (f : κ → β) (c : List (κ × β)) (k : κ) (ks : List κ)
    (h : ElectronicHamiltonian) (v : VibronicHamiltonian)
    (ss : List Sub) :
    (memoCall f ((memoCall f c k).2.1) k).1 = (memoCall f c k).1
    ∧ (memoCall f ((memoCall f c k).2.1) k).2.1 = (memoCall f c k).2.1
    ∧ (memoCall f ((memoCall f c k).2.1) k).2.2 = []
    ∧ (memoRun f [] ks).1 = ks.map f
    ∧ ((memoRun f [] ks).2.2).Nodup
    ∧ (memoRun h.H [] ss).1 = ss.map h.H
    ∧ (memoRun h.ground_state [] ss).1 = ss.map h.ground_state
    ∧ (memoRun v.H [] ss).1 = ss.map v.H := by
  have hhit : ∀ (r : β) (c' : List (κ × β)), cacheLookup c' k = some r →
      memoCall f c' k = (r, c', []) := by
    intro r c' hr
    unfold memoCall
    rw [hr]
  have hsecond : memoCall f ((memoCall f c k).2.1) k
      = ((memoCall f c k).1, (memoCall f c k).2.1, []) :=
    hhit (memoCall f c k).1 (memoCall f c k).2.1 (memoCall_cached f c k)
  refine ⟨?_, ?_, ?_, ?_, ?_, ?_, ?_, ?_⟩
  · rw [hsecond]
  · rw [hsecond]
  · rw [hsecond]
  · exact memoRun_results f ks [] (by simp)
  · exact memoRun_comp_nodup f ks []
  · exact memoRun_results h.H ss [] (by simp)
  · exact memoRun_results h.ground_state ss [] (by simp)
  · exact memoRun_results v.H ss [] (by simp)

/-- The `mean_excitation_freq` of an electronic Hamiltonian in explicit
form: the trace of `H('e')` (which is `H_1exc` itself) divided by the
site count, plus the energy offset. -/
theorem electronic_mean_formula (g : ElectronicHamiltonian) :
    g.mean_excitation_freq
      = (∑ i ∈ Finset.range g.H_1exc.dim, g.H_1exc.entry i i)
          / (g.H_1exc.dim : ℝ) + g.energy_offset := by
  have htr : (g.H [Manifold.e]).trace
      = ∑ i ∈ Finset.range g.H_1exc.dim, g.H_1exc.entry i i := by
    apply Finset.sum_congr rfl
    intro i hi
    have hi' : i < g.H_1exc.dim := Finset.mem_range.mp hi
    show (Mat.blockDiag2 g.H_1exc (Mat.zeros 0)).entry i i = _
    simp [Mat.blockDiag2, hi']
  unfold ElectronicHamiltonian.mean_excitation_freq
  rw [htr]
  rfl

/-- C10: `mean_excitation_freq` is invariant under the rotating-frame
transform: shifting every diagonal entry by `f - energy_offset` is
exactly compensated by the new offset `f` (exact arithmetic; the site
count must be positive so that the eigenvalue mean exists). -/
theorem mean_excitation_freq_rotating_invariant
    (h : ElectronicHamiltonian) (f : ℝ) (hn : 0 < h.H_1exc.dim)
    (_hsym : h.H_1exc.Hermitian) :
    (h.in_rotating_frame (some f)).mean_excitation_freq
      = h.mean_excitation_freq := by
  rw [electronic_mean_formula, electronic_mean_formula]
  have hdim : (h.in_rotating_frame (some f)).H_1exc.dim
      = h.H_1exc.dim := rfl
  have hoff : (h.in_rotating_frame (some f)).energy_offset = f := rfl
  have hent : ∀ i, (h.in_rotating_frame (some f)).H_1exc.entry i i
      = h.H_1exc.entry i i - (f - h.energy_offset) := by
    intro i
    simp [ElectronicHamiltonian.in_rotating_frame,
      ElectronicHamiltonian.make, Mat.sub, Mat.smul, Mat.identity]
  rw [hdim, hoff]
  simp only [hent]
  rw [Finset.sum_sub_distrib, Finset.sum_const, Finset.card_range,
    nsmul_eq_mul]
  have hn' : (h.H_1exc.dim : ℝ) ≠ 0 := Nat.cast_ne_zero.mpr hn.ne'
  field_simp
  ring

/-- C10, witness at the concrete two-site example and frequency 5. -/
theorem mean_excitation_freq_rotating_invariant_witness :
    0 < ehPlain.H_1exc.dim
    ∧ ehPlain.H_1exc.Hermitian
    ∧ (ehPlain.in_rotating_frame (some 5)).mean_excitation_freq
        = ehPlain.mean_excitation_freq := by
  have hsym : ehPlain.H_1exc.Hermitian := by
    intro i j _ _
    show (if i + j = 1 then (1 : ℝ) else 0) = if j + i = 1 then 1 else 0
    rw [Nat.add_comm]
  exact ⟨by decide, hsym,
    mean_excitation_freq_rotating_invariant ehPlain 5 (by decide) hsym⟩

/-- Support for the embedding of `np.mean(E('e'))` as trace / dimension:
for a real symmetric matrix, the sum of the eigenvalues produced by the
spectral theorem is the trace, so the eigenvalue mean computed by
`scipy.linalg.eigh` inside `mean_excitation_freq` is exactly
`trace / dim`. -/
theorem trace_eq_sum_eigenvalues {n : ℕ} {A : Matrix (Fin n) (Fin n) ℝ}
    (hA : A.IsHermitian) : A.trace = ∑ i, hA.eigenvalues i := by
  have h1 : (Matrix.diagonal (RCLike.ofReal ∘ hA.eigenvalues)).trace
      = ((star (hA.eigenvectorUnitary : Matrix (Fin n) (Fin n) ℝ)) * A
          * (hA.eigenvectorUnitary : Matrix (Fin n) (Fin n) ℝ)).trace := by
    rw [hA.star_mul_self_mul_eq_diagonal]
  rw [Matrix.trace_mul_cycle,
    Matrix.mem_unitaryGroup_iff.mp (hA.eigenvectorUnitary).2, one_mul,
    Matrix.trace_diagonal] at h1
  rw [← h1]
  simp [RCLike.ofReal_real_eq_id]

/-- Sums of diagonal matrices are diagonal. -/
theorem Mat.Diagonal.add {A B : Mat} (hA : A.Diagonal) (hB : B.Diagonal) :
    (Mat.add A B).Diagonal := by
  intro i j hij
  show A.entry i j + B.entry i j = 0
  rw [hA i j hij, hB i j hij, add_zero]

/-- Scalar multiples of diagonal matrices are diagonal. -/
theorem Mat.Diagonal.smul (c : ℝ) {A : Mat} (hA : A.Diagonal) :
    (Mat.smul c A).Diagonal := by
  intro i j hij
  show c * A.entry i j = 0
  rw [hA i j hij, mul_zero]

/-- The zero matrix is diagonal. -/
theorem Mat.Diagonal.zeros (n : ℕ) : (Mat.zeros n).Diagonal :=
  fun _ _ _ => rfl

/-- The identity matrix is diagonal. -/
theorem Mat.Diagonal.identity (n : ℕ) : (Mat.identity n).Diagonal := by
  intro i j hij
  show (if i = j then (1 : ℝ) else 0) = 0
  rw [if_neg hij]

/-- A matrix built by `np.diag` is diagonal. -/
theorem Mat.Diagonal.diagVec (n : ℕ) (v : ℕ → ℝ) :
    (Mat.diagVec n v).Diagonal := by
  intro i j hij
  show (if i = j then v i else 0) = 0
  rw [if_neg hij]

/-- Kronecker products of diagonal matrices are diagonal. -/
theorem Mat.Diagonal.kron {A B : Mat} (hA : A.Diagonal) (hB : B.Diagonal) :
    (Mat.kron A B).Diagonal := by
  intro i j hij
  show A.entry (i / B.dim) (j / B.dim) * B.entry (i % B.dim) (j % B.dim) = 0
  by_cases hd : i / B.dim = j / B.dim
  · have hm : i % B.dim ≠ j % B.dim := by
      intro hm
      exact hij
        (by rw [← Nat.div_add_mod i B.dim, ← Nat.div_add_mod j B.dim, hd, hm])
    rw [hB _ _ hm, mul_zero]
  · rw [hA _ _ hd, zero_mul]

/-- A left fold of matrix additions keeps the dimension of its seed. -/
theorem foldl_add_dim {α : Type} (l : List α) (g : α → Mat) (A : Mat) :
    (l.foldl (fun acc x => Mat.add acc (g x)) A).dim = A.dim := by
  induction l generalizing A with
  | nil => rfl
  | cons x xs ih => exact ih (Mat.add A (g x))

/-- A left fold of additions of diagonal matrices onto a diagonal seed is
diagonal. -/
theorem foldl_add_diagonal {α : Type} (l : List α) (g : α → Mat) (A : Mat)
    (hA : A.Diagonal) (hg : ∀ x ∈ l, (g x).Diagonal) :
    (l.foldl (fun acc x => Mat.add acc (g x)) A).Diagonal := by
  induction l generalizing A with
  | nil => exact hA
  | cons x xs ih =>
    exact ih (Mat.add A (g x)) (hA.add (hg x (by simp)))
      (fun y hy => hg y (by simp [hy]))

/-- The vibrational Hamiltonian is a diagonal matrix: every summand is a
Kronecker product of diagonal factors. -/
theorem Hvib_diagonal (v : VibronicHamiltonian) :
    (v.H_vibrational).Diagonal := by
  unfold VibronicHamiltonian.H_vibrational
  apply foldl_add_diagonal
  · exact Mat.Diagonal.zeros _
  · intro me _
    exact Mat.Diagonal.smul _
      ((Mat.Diagonal.identity _).kron
        ((Mat.Diagonal.diagVec _ _).kron (Mat.Diagonal.identity _)))

/-- The vibrational Hamiltonian lives on the joint vibrational space. -/
theorem Hvib_dim (v : VibronicHamiltonian) :
    (v.H_vibrational).dim = v.n_vibrational_states := by
  unfold VibronicHamiltonian.H_vibrational
  exact foldl_add_dim _ _ _

/-- Entry computation for `thermal_state` on a diagonal Hamiltonian: the
matrix exponential of a diagonal matrix is the diagonal of entrywise
exponentials, so the thermal state is the diagonal Boltzmann
distribution. -/
theorem thermal_state_entry (H : Mat) (T : ℝ) (hH : H.Diagonal) :
    ∀ i j, (thermal_state H T).entry i j
      = if i < H.dim ∧ j < H.dim ∧ i = j then
          (∑ l ∈ Finset.range H.dim, Real.exp (-T⁻¹ * H.entry l l))⁻¹
            * Real.exp (-T⁻¹ * H.entry i i)
        else 0 := by
  have htom : H.toMatrix
      = Matrix.diagonal (fun i : Fin H.dim => H.entry i i) := by
    ext i j
    by_cases hij : i = j
    · subst hij
      simp [Mat.toMatrix]
    · have hv : (i : ℕ) ≠ (j : ℕ) := fun hv => hij (Fin.ext hv)
      simp [Mat.toMatrix, Matrix.diagonal_apply_ne _ hij, hH _ _ hv]
  have hsm : (-T⁻¹) • Matrix.diagonal (fun i : Fin H.dim => H.entry i i)
      = Matrix.diagonal (fun i : Fin H.dim => -T⁻¹ * H.entry i i) := by
    rw [← Matrix.diagonal_smul]
    congr 1
  have hexp : NormedSpace.exp ℝ
        (Matrix.diagonal (fun i : Fin H.dim => -T⁻¹ * H.entry i i))
      = Matrix.diagonal
          (fun i : Fin H.dim => Real.exp (-T⁻¹ * H.entry i i)) := by
    have hfun : NormedSpace.exp ℝ (fun i : Fin H.dim => -T⁻¹ * H.entry i i)
        = fun i : Fin H.dim => Real.exp (-T⁻¹ * H.entry i i) := by
      funext l
      rw [Pi.coe_exp]
      exact (congrFun Real.exp_eq_exp_ℝ _).symm
    rw [Matrix.exp_diagonal, hfun]
  have htr : (Matrix.diagonal
        (fun i : Fin H.dim => Real.exp (-T⁻¹ * H.entry i i))).trace
      = ∑ l ∈ Finset.range H.dim, Real.exp (-T⁻¹ * H.entry l l) := by
    rw [Matrix.trace_diagonal]
    exact Fin.sum_univ_eq_sum_range (fun l => Real.exp (-T⁻¹ * H.entry l l))
      H.dim
  intro i j
  unfold thermal_state
  rw [htom, hsm, hexp, htr]
  show (Mat.ofMatrix _).entry i j = _
  unfold Mat.ofMatrix
  dsimp only
  by_cases hi : i < H.dim
  · by_cases hj : j < H.dim
    · simp only [hi, hj, and_true, true_and, dif_pos (And.intro hi hj)]
      by_cases hij : i = j
      · subst hij
        rw [if_pos rfl]
        simp [Matrix.diagonal_apply_eq]
      · rw [if_neg hij]
        have : (⟨i, hi⟩ : Fin H.dim) ≠ ⟨j, hj⟩ := by
          simpa [Fin.ext_iff] using hij
        simp [Matrix.diagonal_apply_ne _ this]
    · rw [dif_neg (by simp [hj]), if_neg (by simp [hj])]
  · rw [dif_neg (by simp [hi]), if_neg (by simp [hi])]

/-- The thermal state of a diagonal Hamiltonian on a nonempty space is a
density matrix: symmetric, positive semi-definite, unit trace. -/
theorem thermal_state_density (H : Mat) (T : ℝ) (hH : H.Diagonal)
    (hdim : 0 < H.dim) :
    (thermal_state H T).dim = H.dim
    ∧ (thermal_state H T).Hermitian
    ∧ (thermal_state H T).PSD
    ∧ (thermal_state H T).trace = 1 := by
  have hent := thermal_state_entry H T hH
  have hWpos : 0 < ∑ l ∈ Finset.range H.dim, Real.exp (-T⁻¹ * H.entry l l) :=
    Finset.sum_pos (fun l _ => Real.exp_pos _)
      ⟨0, Finset.mem_range.mpr hdim⟩
  refine ⟨rfl, ?_, ?_, ?_⟩
  · intro i j hi hj
    rw [hent i j, hent j i]
    by_cases hij : i = j
    · subst hij; rfl
    · rw [if_neg (by simp [hij]), if_neg (by simp [Ne.symm hij])]
  · intro x
    apply Finset.sum_nonneg
    intro i hi
    have hi' : i < H.dim := Finset.mem_range.mp hi
    have hsum : (∑ j ∈ Finset.range (thermal_state H T).dim,
        x i * (thermal_state H T).entry i j * x j)
        = x i * (thermal_state H T).entry i i * x i := by
      apply Finset.sum_eq_single i
      · intro b _ hb
        rw [hent i b, if_neg (by simp [Ne.symm hb]), mul_zero, zero_mul]
      · intro hnot
        exact absurd (Finset.mem_range.mpr hi') hnot
    rw [hsum, hent i i, if_pos ⟨hi', hi', rfl⟩]
    have hc : 0 < (∑ l ∈ Finset.range H.dim,
        Real.exp (-T⁻¹ * H.entry l l))⁻¹ * Real.exp (-T⁻¹ * H.entry i i) :=
      mul_pos (inv_pos.mpr hWpos) (Real.exp_pos _)
    calc (0:ℝ) ≤ ((∑ l ∈ Finset.range H.dim,
            Real.exp (-T⁻¹ * H.entry l l))⁻¹
          * Real.exp (-T⁻¹ * H.entry i i)) * (x i * x i) :=
        mul_nonneg hc.le (mul_self_nonneg _)
      _ = x i * ((∑ l ∈ Finset.range H.dim,
            Real.exp (-T⁻¹ * H.entry l l))⁻¹
          * Real.exp (-T⁻¹ * H.entry i i)) * x i := by ring
  · show ∑ i ∈ Finset.range (thermal_state H T).dim,
        (thermal_state H T).entry i i = 1
    have hstep : ∀ i ∈ Finset.range H.dim,
        (thermal_state H T).entry i i
        = (∑ l ∈ Finset.range H.dim, Real.exp (-T⁻¹ * H.entry l l))⁻¹
            * Real.exp (-T⁻¹ * H.entry i i) := by
      intro i hi
      have hi' : i < H.dim := Finset.mem_range.mp hi
      rw [hent i i, if_pos ⟨hi', hi', rfl⟩]
    rw [show (thermal_state H T).dim = H.dim from rfl,
      Finset.sum_congr rfl hstep, ← Finset.mul_sum,
      inv_mul_cancel₀ hWpos.ne']

/-- A subspace label containing the ground manifold has positive
dimension (its `g` block alone contributes one state). -/
theorem operator_extend_dim_pos (M : Mat) (s : Sub)
    (hg : Manifold.g ∈ s) : 0 < (operator_extend M s).dim := by
  induction s with
  | nil => cases hg
  | cons m rest ih =>
    show 0 < (manifoldBlock M m).dim + (operator_extend M rest).dim
    rcases List.mem_cons.mp hg with h | h
    · subst h
      show 0 < 1 + (operator_extend M rest).dim
      omega
    · have := ih h
      omega

/-- The electronic `ground_state` on a subspace containing `g` is a
density matrix: symmetric, positive semi-definite, unit trace. -/
theorem electronic_ground_state_density (h : ElectronicHamiltonian)
    (s : Sub) (hg : Manifold.g ∈ s) :
    (h.ground_state s).Hermitian ∧ (h.ground_state s).PSD
      ∧ (h.ground_state s).trace = 1 := by
  have hN : 0 < (h.ground_state s).dim := operator_extend_dim_pos h.H_1exc s hg
  refine ⟨?_, ?_, ?_⟩
  · intro i j _ _
    show (if Manifold.g ∈ s ∧ i = 0 ∧ j = 0 then (1:ℝ) else 0)
      = if Manifold.g ∈ s ∧ j = 0 ∧ i = 0 then 1 else 0
    by_cases hi : i = 0 <;> by_cases hj : j = 0 <;> simp [hi, hj]
  · intro x
    have hin : ∀ i ∈ Finset.range (h.ground_state s).dim,
        (∑ j ∈ Finset.range (h.ground_state s).dim,
          x i * (h.ground_state s).entry i j * x j)
          = if i = 0 then x 0 * x 0 else 0 := by
      intro i _
      by_cases hi : i = 0
      · subst hi
        rw [if_pos rfl]
        have h1 : (∑ j ∈ Finset.range (h.ground_state s).dim,
            x 0 * (h.ground_state s).entry 0 j * x j)
            = x 0 * (h.ground_state s).entry 0 0 * x 0 := by
          apply Finset.sum_eq_single 0
          · intro b _ hb
            show x 0 * (if Manifold.g ∈ s ∧ (0:ℕ) = 0 ∧ b = 0
                then (1:ℝ) else 0) * x b = 0
            simp [hb]
          · intro h0
            exact absurd (Finset.mem_range.mpr hN) h0
        rw [h1]
        show x 0 * (if Manifold.g ∈ s ∧ (0:ℕ) = 0 ∧ (0:ℕ) = 0
            then (1:ℝ) else 0) * x 0 = x 0 * x 0
        simp [hg]
      · rw [if_neg hi]
        apply Finset.sum_eq_zero
        intro j _
        show x i * (if Manifold.g ∈ s ∧ i = 0 ∧ j = 0
            then (1:ℝ) else 0) * x j = 0
        simp [hi]
    rw [Finset.sum_congr rfl hin,
      Finset.sum_ite_eq' (Finset.range (h.ground_state s).dim) 0
        (fun _ => x 0 * x 0), if_pos (Finset.mem_range.mpr hN)]
    exact mul_self_nonneg _
  · show (∑ i ∈ Finset.range (h.ground_state s).dim,
        (h.ground_state s).entry i i) = 1
    have hstep : ∀ i ∈ Finset.range (h.ground_state s).dim,
        (h.ground_state s).entry i i = if i = 0 then (1:ℝ) else 0 := by
      intro i _
      show (if Manifold.g ∈ s ∧ i = 0 ∧ i = 0 then (1:ℝ) else 0) = _
      by_cases hi : i = 0 <;> simp [hi, hg]
    rw [Finset.sum_congr rfl hstep,
      Finset.sum_ite_eq' (Finset.range (h.ground_state s).dim) 0
        (fun _ => (1:ℝ)), if_pos (Finset.mem_range.mpr hN)]

/-- Entry formula for the Kronecker product of an electronic ground state
(on a subspace containing `g`) with any matrix `ρ` on a nonempty space:
the result is the corner block holding `ρ`. -/
theorem ground_corner_entry (h : ElectronicHamiltonian) (s : Sub) (ρ : Mat)
    (hg : Manifold.g ∈ s) (hρ : 0 < ρ.dim) (i j : ℕ) :
    (Mat.kron (h.ground_state s) ρ).entry i j
      = if i < ρ.dim ∧ j < ρ.dim then ρ.entry i j else 0 := by
  show (if Manifold.g ∈ s ∧ i / ρ.dim = 0 ∧ j / ρ.dim = 0
      then (1:ℝ) else 0) * ρ.entry (i % ρ.dim) (j % ρ.dim) = _
  by_cases hi : i < ρ.dim
  · by_cases hj : j < ρ.dim
    · rw [if_pos ⟨hg, (Nat.div_eq_zero_iff hρ).mpr hi,
        (Nat.div_eq_zero_iff hρ).mpr hj⟩, one_mul,
        Nat.mod_eq_of_lt hi, Nat.mod_eq_of_lt hj, if_pos ⟨hi, hj⟩]
    · have : j / ρ.dim ≠ 0 := fun h0 =>
        hj ((Nat.div_eq_zero_iff hρ).mp h0)
      rw [if_neg (by simp [this]), zero_mul, if_neg (by simp [hj])]
  · have : i / ρ.dim ≠ 0 := fun h0 =>
      hi ((Nat.div_eq_zero_iff hρ).mp h0)
    rw [if_neg (by simp [this]), zero_mul, if_neg (by simp [hi])]

/-- The trace of the corner-block Kronecker product is the trace of `ρ`. -/
theorem ground_corner_trace (h : ElectronicHamiltonian) (s : Sub) (ρ : Mat)
    (hg : Manifold.g ∈ s) (hρ : 0 < ρ.dim) :
    (Mat.kron (h.ground_state s) ρ).trace = ρ.trace := by
  have hN : 0 < (h.ground_state s).dim := operator_extend_dim_pos h.H_1exc s hg
  have hsub : Finset.range ρ.dim
      ⊆ Finset.range ((h.ground_state s).dim * ρ.dim) :=
    Finset.range_subset.mpr (Nat.le_mul_of_pos_left _ hN)
  show (∑ i ∈ Finset.range ((h.ground_state s).dim * ρ.dim),
      (Mat.kron (h.ground_state s) ρ).entry i i) = ρ.trace
  rw [Finset.sum_congr rfl
    (fun i _ => ground_corner_entry h s ρ hg hρ i i)]
  have hvan : ∀ i ∈ Finset.range ((h.ground_state s).dim * ρ.dim),
      i ∉ Finset.range ρ.dim →
      (if i < ρ.dim ∧ i < ρ.dim then ρ.entry i i else 0) = 0 := by
    intro i _ hi
    have hlt : ¬ i < ρ.dim := by simpa using hi
    rw [if_neg (by simp [hlt])]
  rw [← Finset.sum_subset hsub hvan]
  show (∑ i ∈ Finset.range ρ.dim,
      (if i < ρ.dim ∧ i < ρ.dim then ρ.entry i i else 0))
    = ∑ i ∈ Finset.range ρ.dim, ρ.entry i i
  apply Finset.sum_congr rfl
  intro i hi
  rw [if_pos ⟨Finset.mem_range.mp hi, Finset.mem_range.mp hi⟩]

/-- The corner-block Kronecker product of a ground state with a symmetric
matrix is symmetric. -/
theorem ground_corner_hermitian (h : ElectronicHamiltonian) (s : Sub)
    (ρ : Mat) (hg : Manifold.g ∈ s) (hρpos : 0 < ρ.dim)
    (hρ : ρ.Hermitian) : (Mat.kron (h.ground_state s) ρ).Hermitian := by
  intro i j _ _
  rw [ground_corner_entry h s ρ hg hρpos i j,
    ground_corner_entry h s ρ hg hρpos j i]
  by_cases hi : i < ρ.dim
  · by_cases hj : j < ρ.dim
    · rw [if_pos ⟨hi, hj⟩, if_pos ⟨hj, hi⟩]
      exact hρ i j hi hj
    · rw [if_neg (by simp [hj]), if_neg (by simp [hj])]
  · rw [if_neg (by simp [hi]), if_neg (by simp [hi])]

/-- The corner-block Kronecker product of a ground state with a positive
semi-definite matrix is positive semi-definite. -/
theorem ground_corner_psd (h : ElectronicHamiltonian) (s : Sub) (ρ : Mat)
    (hg : Manifold.g ∈ s) (hρpos : 0 < ρ.dim) (hρ : ρ.PSD) :
    (Mat.kron (h.ground_state s) ρ).PSD := by
  have hN : 0 < (h.ground_state s).dim := operator_extend_dim_pos h.H_1exc s hg
  have hsub : Finset.range ρ.dim
      ⊆ Finset.range ((h.ground_state s).dim * ρ.dim) :=
    Finset.range_subset.mpr (Nat.le_mul_of_pos_left _ hN)
  intro x
  have hinner : ∀ i,
      (∑ j ∈ Finset.range ((h.ground_state s).dim * ρ.dim),
        x i * (Mat.kron (h.ground_state s) ρ).entry i j * x j)
      = if i < ρ.dim then
          ∑ j ∈ Finset.range ρ.dim, x i * ρ.entry i j * x j
        else 0 := by
    intro i
    rw [Finset.sum_congr rfl
      (fun j _ => by rw [ground_corner_entry h s ρ hg hρpos i j])]
    by_cases hi : i < ρ.dim
    · rw [if_pos hi]
      have hvan : ∀ j ∈ Finset.range ((h.ground_state s).dim * ρ.dim),
          j ∉ Finset.range ρ.dim →
          x i * (if i < ρ.dim ∧ j < ρ.dim then ρ.entry i j else 0) * x j
            = 0 := by
        intro j _ hj
        have hlt : ¬ j < ρ.dim := by simpa using hj
        rw [if_neg (by simp [hlt]), mul_zero, zero_mul]
      rw [← Finset.sum_subset hsub hvan]
      apply Finset.sum_congr rfl
      intro j hj
      rw [if_pos ⟨hi, Finset.mem_range.mp hj⟩]
    · rw [if_neg hi]
      apply Finset.sum_eq_zero
      intro j _
      rw [if_neg (by simp [hi]), mul_zero, zero_mul]
  show (0:ℝ) ≤ ∑ i ∈ Finset.range ((h.ground_state s).dim * ρ.dim),
      ∑ j ∈ Finset.range ((h.ground_state s).dim * ρ.dim),
        x i * (Mat.kron (h.ground_state s) ρ).entry i j * x j
  rw [Finset.sum_congr rfl (fun i _ => hinner i)]
  have hvan : ∀ i ∈ Finset.range ((h.ground_state s).dim * ρ.dim),
      i ∉ Finset.range ρ.dim →
      (if i < ρ.dim then
        ∑ j ∈ Finset.range ρ.dim, x i * ρ.entry i j * x j else 0) = 0 := by
    intro i _ hi
    have hlt : ¬ i < ρ.dim := by simpa using hi
    rw [if_neg hlt]
  rw [← Finset.sum_subset hsub hvan]
  have hmem : ∀ i ∈ Finset.range ρ.dim,
      (if i < ρ.dim then
        ∑ j ∈ Finset.range ρ.dim, x i * ρ.entry i j * x j else 0)
      = ∑ j ∈ Finset.range ρ.dim, x i * ρ.entry i j * x j :=
    fun i hi => if_pos (Finset.mem_range.mp hi)
  rw [Finset.sum_congr rfl hmem]
  exact hρ x

/-- C7: `ground_state` is a density matrix — Hermitian, positive
semi-definite, trace one — for every subspace containing the ground
manifold: directly for an `ElectronicHamiltonian`, and for a
`VibronicHamiltonian` with a configured bath (of positive temperature, as
the spec assumes) and nonempty vibrational space, whose ground state is
the Kronecker product of the electronic ground state with the vibrational
thermal state. -/
theorem ground_state_density_matrix :
    (∀ (h : ElectronicHamiltonian) (s : Sub), Manifold.g ∈ s →
      (h.ground_state s).Hermitian ∧ (h.ground_state s).PSD
        ∧ (h.ground_state s).trace = 1)
    ∧ (∀ (v : VibronicHamiltonian) (b : Bath) (s : Sub),
        v.electronic.bath = some b → 0 < b.temperature →
        0 < v.n_vibrational_states → Manifold.g ∈ s →
        ∃ ρ, v.ground_state s = Except.ok ρ
          ∧ ρ.Hermitian ∧ ρ.PSD ∧ ρ.trace = 1) := by
  constructor
  · exact electronic_ground_state_density
  · intro v b s hb hT hnv hg
    have hvdim : 0 < (v.H_vibrational).dim := by
      rw [Hvib_dim]; exact hnv
    obtain ⟨hdim, hherm, hpsd, htrace⟩ :=
      thermal_state_density v.H_vibrational b.temperature
        (Hvib_diagonal v) hvdim
    have hρpos : 0 < (thermal_state v.H_vibrational b.temperature).dim := by
      rw [hdim]; exact hvdim
    refine ⟨Mat.kron (v.electronic.ground_state s)
        (thermal_state v.H_vibrational b.temperature), ?_, ?_, ?_, ?_⟩
    · unfold VibronicHamiltonian.ground_state VibronicHamiltonian.bath
      rw [hb]
    · exact ground_corner_hermitian v.electronic s _ hg hρpos hherm
    · exact ground_corner_psd v.electronic s _ hg hρpos hpsd
    · rw [ground_corner_trace v.electronic s _ hg hρpos, htrace]

/-- C7, witness at the concrete instances: the bare two-site electronic
Hamiltonian and the vibronic instance with a temperature-1 bath. -/
theorem ground_state_density_matrix_witness :
    ((ehPlain.ground_state [Manifold.g]).Hermitian
      ∧ (ehPlain.ground_state [Manifold.g]).PSD
      ∧ (ehPlain.ground_state [Manifold.g]).trace = 1)
    ∧ (∃ ρ, vibBath.ground_state [Manifold.g] = Except.ok ρ
        ∧ ρ.Hermitian ∧ ρ.PSD ∧ ρ.trace = 1) :=
  ⟨ground_state_density_matrix.1 ehPlain [Manifold.g] (by decide),
    ground_state_density_matrix.2 vibBath ⟨1⟩ [Manifold.g] rfl
      (by norm_num) (by decide) (by decide)⟩

end QSpectra
